import Mathlib

/-!
Shallow embedding of the FileShredder engine (`src/modules/fileShredder.js`
and `src/modules/utils.js`): overwrite-pass pattern tables, the per-pass
write/progress behaviour of `overwriteFileWithPattern`, the DoD / Gutmann /
quick wipe drivers, the name-obfuscation rename loops, directory traversal
with its item counting and progress aggregation, and the path-validation
guard of the static `shredFile` entry point.
-/

namespace FileShredder

/-- A JS pattern entry value: a byte literal such as `0x55`, or the string
`'random'` (which the drivers translate to `null`, i.e. `none`). -/
inductive JsPattern where
  | byte : Nat → JsPattern
  | random : JsPattern
deriving DecidableEq, Repr

/-- One entry of `this.dodPatterns` / `this.gutmannPatterns`. -/
structure PatternEntry where
  pattern : JsPattern
  description : String
deriving DecidableEq, Repr

/-- `this.dodPatterns` from the constructor. -/
def dodPatterns : List PatternEntry :=
  [ ⟨.byte 0x00, "零覆盖"⟩,
    ⟨.byte 0xFF, "一覆盖"⟩,
    ⟨.random, "随机覆盖"⟩ ]

/-- `this.gutmannPatterns` from the constructor: 4 random entries, the 27
fixed-byte entries, then 4 random entries, exactly as listed in the source. -/
def gutmannPatterns : List PatternEntry :=
  [ ⟨.random, "随机覆盖"⟩,
    ⟨.random, "随机覆盖"⟩,
    ⟨.random, "随机覆盖"⟩,
    ⟨.random, "随机覆盖"⟩,
    ⟨.byte 0x55, "模式1"⟩,
    ⟨.byte 0xAA, "模式2"⟩,
    ⟨.byte 0x92, "模式3"⟩,
    ⟨.byte 0x49, "模式4"⟩,
    ⟨.byte 0x24, "模式5"⟩,
    ⟨.byte 0x92, "模式6"⟩,
    ⟨.byte 0x49, "模式7"⟩,
    ⟨.byte 0x24, "模式8"⟩,
    ⟨.byte 0x55, "模式9"⟩,
    ⟨.byte 0xAA, "模式10"⟩,
    ⟨.byte 0x92, "模式11"⟩,
    ⟨.byte 0x49, "模式12"⟩,
    ⟨.byte 0x24, "模式13"⟩,
    ⟨.byte 0x92, "模式14"⟩,
    ⟨.byte 0x49, "模式15"⟩,
    ⟨.byte 0x24, "模式16"⟩,
    ⟨.byte 0x55, "模式17"⟩,
    ⟨.byte 0xAA, "模式18"⟩,
    ⟨.byte 0x92, "模式19"⟩,
    ⟨.byte 0x49, "模式20"⟩,
    ⟨.byte 0x24, "模式21"⟩,
    ⟨.byte 0x92, "模式22"⟩,
    ⟨.byte 0x49, "模式23"⟩,
    ⟨.byte 0x24, "模式24"⟩,
    ⟨.byte 0x55, "模式25"⟩,
    ⟨.byte 0xAA, "模式26"⟩,
    ⟨.byte 0x92, "模式27"⟩,
    ⟨.random, "随机覆盖"⟩,
    ⟨.random, "随机覆盖"⟩,
    ⟨.random, "随机覆盖"⟩,
    ⟨.random, "随机覆盖"⟩ ]

/-- `pattern.pattern === 'random' ? null : pattern.pattern` in
`performGutmannWipe`: the value handed to `overwriteFileWithPattern`. -/
def patternValue : JsPattern → Option Nat
  | .byte b => some b
  | .random => none

/-- One invocation of `overwriteFileWithPattern`: the pattern argument
(`none` = random data) and the progress window `[progressStart, progressEnd]`
passed by the wipe driver. -/
structure PassCall where
  pattern : Option Nat
  progressStart : ℚ
  progressEnd : ℚ
deriving DecidableEq, Repr

/-- The body of the wipe loops, indexed from `i`: pass `i` of
`totalOperations` receives the window `[i/n*100, (i+1)/n*100]`. -/
def wipeCallsFrom (totalOperations : ℚ) (i : Nat) : List (Option Nat) → List PassCall
  | [] => []
  | p :: ps =>
      ⟨p, (i : ℚ) / totalOperations * 100, ((i : ℚ) + 1) / totalOperations * 100⟩ ::
        wipeCallsFrom totalOperations (i + 1) ps

/-- The loop shared by `performDoDWipeInternal` and `performGutmannWipe`:
`totalOperations = patterns.length`, and pass `i` receives the window
`[i/n*100, (i+1)/n*100]`. -/
def wipeCalls (pats : List (Option Nat)) : List PassCall :=
  wipeCallsFrom (pats.length : ℚ) 0 pats

/-- The local `patterns` array of `performDoDWipeInternal`: `[0, 255, null]`. -/
def dodWipePatternValues : List (Option Nat) := [some 0, some 255, none]

/-- The sequence of `overwriteFileWithPattern` calls made by
`performDoDWipeInternal`. -/
def performDoDWipeInternalCalls : List PassCall := wipeCalls dodWipePatternValues

/-- The sequence of `overwriteFileWithPattern` calls made by
`performGutmannWipe`: one call per `gutmannPatterns` entry, in order, with
`'random'` translated to `null`. -/
def performGutmannWipeCalls : List PassCall :=
  wipeCalls (gutmannPatterns.map (fun p => patternValue p.pattern))

/-- The single call made by `performQuickWipe`:
`overwriteFileWithPattern(filePath, null, cb, 0, 100)`. -/
def performQuickWipeCalls : List PassCall := [⟨none, 0, 100⟩]

/-- A shred method accepted by the static `shredFile` dispatch. -/
inductive Method where
  | quick
  | dod
  | gutmann
deriving DecidableEq, Repr

/-- The pass list of a method, as the spec's `PatternProvider(A)`:
quick = one random pass, dod = the `performDoDWipeInternal` patterns,
gutmann = the `gutmannPatterns` values. -/
def methodPatternValues : Method → List (Option Nat)
  | .quick => [none]
  | .dod => dodWipePatternValues
  | .gutmann => gutmannPatterns.map (fun p => patternValue p.pattern)

/-- The `overwriteFileWithPattern` calls executed by the static `shredFile`
switch for each method. -/
def methodCalls : Method → List PassCall
  | .quick => performQuickWipeCalls
  | .dod => performDoDWipeInternalCalls
  | .gutmann => performGutmannWipeCalls

/-! ### `overwriteFileWithPattern`: per-pass writes, progress events, flush

`overwriteFileWithPattern` computes `bufferSize = Math.min(1024*1024,
fileSize)`, `fullBuffers = Math.floor(fileSize / bufferSize)`,
`remainingBytes = fileSize % bufferSize`, writes `fullBuffers` chunks of
`bufferSize` bytes (emitting one rounded progress value after each), writes
the remainder chunk without a progress event, and finally `fsyncSync`s.

For `fileSize = 0` the JS arithmetic gives `bufferSize = 0`, `fullBuffers =
Math.floor(0/0) = NaN` and `remainingBytes = NaN`; the `i < NaN` loop guard
and the `NaN > 0` remainder guard are both false, so no write and no
progress event occurs. Lean's `Nat` division and modulus by zero give `0/0 =
0` and `0 % 0 = 0`, which produce exactly the same observable behaviour (no
loop iterations, no remainder write), so plain `Nat` division embeds the JS
computation faithfully for every `fileSize ≥ 0`. -/

/-- `Math.min(1024 * 1024, fileSize)` from `overwriteFileWithPattern`. -/
def bufferSizeOf (fileSize : Nat) : Nat := min (1024 * 1024) fileSize

/-- `Math.floor(fileSize / bufferSize)`. -/
def fullBuffers (fileSize : Nat) : Nat := fileSize / bufferSizeOf fileSize

/-- `fileSize % bufferSize`. -/
def remainingBytes (fileSize : Nat) : Nat := fileSize % bufferSizeOf fileSize

/-- `Math.round` on an exact rational: `Math.round(x) = ⌊x + 1/2⌋`,
which is Lean's `round`. -/
def jsRound (q : ℚ) : ℤ := round q

/-- The progress arguments (before rounding) passed to `Math.round` in one
pass: after full chunk `i`, the callback receives
`startProgress + (endProgress - startProgress) * ((i+1)*bufferSize/fileSize)`. -/
def passProgressArg (fileSize : Nat) (ps pe : ℚ) (i : Nat) : ℚ :=
  ps + (pe - ps) * (((i : ℚ) + 1) * (bufferSizeOf fileSize : ℚ) / (fileSize : ℚ))

/-- The rounded progress values reported by one `overwriteFileWithPattern`
pass, in order (one per full chunk; the remainder write reports none). -/
def passEvents (fileSize : Nat) (ps pe : ℚ) : List ℤ :=
  (List.range (fullBuffers fileSize)).map (fun i => jsRound (passProgressArg fileSize ps pe i))

/-- The `(offset, length)` write calls of one pass: `fullBuffers` chunk
writes, then the remainder write when `remainingBytes > 0`. -/
def passWrites (fileSize : Nat) : List (Nat × Nat) :=
  (List.range (fullBuffers fileSize)).map
      (fun i => (i * bufferSizeOf fileSize, bufferSizeOf fileSize)) ++
    (if remainingBytes fileSize > 0 then
      [(fullBuffers fileSize * bufferSizeOf fileSize, remainingBytes fileSize)]
    else [])

/-- The observable outcome of one `overwriteFileWithPattern` call. -/
structure PassTrace where
  pat : Option Nat
  writes : List (Nat × Nat)
  events : List ℤ
  flushed : Bool
deriving DecidableEq, Repr

/-- One `overwriteFileWithPattern(filePath, pattern, cb, ps, pe)` call on a
file of size `fileSize`: its writes, its progress events, and the final
`fsyncSync` (always executed when the pass completes). -/
def overwriteFileWithPattern (fileSize : Nat) (pat : Option Nat) (ps pe : ℚ) : PassTrace :=
  { pat := pat
    writes := passWrites fileSize
    events := passEvents fileSize ps pe
    flushed := true }

/-- All pass traces produced by running a method's calls on a file of a
given size. -/
def runMethodTraces (m : Method) (fileSize : Nat) : List PassTrace :=
  (methodCalls m).map (fun c => overwriteFileWithPattern fileSize c.pattern c.progressStart c.progressEnd)

/-! ### Name obfuscation and deletion

`secureDeleteFileName` (instance path) renames the file up to 5 times with
`crypto.randomBytes(Math.max(8, 16 - i * 2)).toString('hex')` plus the
original extension, breaking out of the loop on the first rename failure,
then attempts one `unlinkSync` whose error is ignored; the whole body is
inside a `try` whose `catch` ignores everything, so it never throws.

The static `shredFile` instead renames 10 times with
`Utils.generateSecureRandomData(16).toString('hex')` (no extension) and then
`unlinkSync`s, with **no** local `try`/`catch`: any failure there reaches the
outer `catch`, which logs and returns `false`. -/

/-- The filesystem's responses to the engine's rename and unlink attempts:
`renameOk i` says whether the `i`-th rename attempt succeeds, `unlinkOk`
whether the final unlink succeeds. -/
structure FsEnv where
  renameOk : Nat → Bool
  unlinkOk : Bool

/-- Observable outcome of `secureDeleteFileName`. -/
structure NameDeleteResult where
  renamesDone : Nat
  unlinkAttempted : Bool
  deleted : Bool
  threw : Bool
deriving DecidableEq, Repr

/-- Renames performed by `secureDeleteFileName`: the loop runs `i = 0..4`
and `break`s at the first rename failure. -/
def secureDeleteRenamesDone (env : FsEnv) : Nat :=
  ((List.range 5).takeWhile (fun i => env.renameOk i)).length

/-- `secureDeleteFileName`: the unlink of whatever path currently exists is
always attempted (its error is ignored), and no error escapes the function. -/
def secureDeleteFileName (env : FsEnv) : NameDeleteResult :=
  { renamesDone := secureDeleteRenamesDone env
    unlinkAttempted := true
    deleted := env.unlinkOk
    threw := false }

/-- The random-name byte lengths used by the `secureDeleteFileName` loop:
`Math.max(8, 16 - i * 2)` for `i = 0..4`. -/
def secureDeleteNameByteLens : List Nat := (List.range 5).map (fun i => max 8 (16 - 2 * i))

/-- The random-name byte lengths used by the static `shredFile` rename loop:
`generateSecureRandomData(16)` for each of `i = 0..9`. -/
def staticShredNameByteLens : List Nat := (List.range 10).map (fun _ => 16)

/-- A rename scheme as the spec describes one: how many renames, which
random-name byte lengths, and whether the original extension is kept. -/
structure RenameScheme where
  renameCount : Nat
  nameByteLens : List Nat
  keepsExtension : Bool
deriving DecidableEq, Repr

/-- The scheme of the instance path (`secureDeleteFileName`): 5 renames,
shrinking lengths, extension preserved (`path.extname` is appended). -/
def instanceRenameScheme : RenameScheme :=
  { renameCount := 5, nameByteLens := secureDeleteNameByteLens, keepsExtension := true }

/-- The scheme of the static `shredFile` rename loop: 10 renames, fixed
16-byte names, no extension. -/
def staticRenameScheme : RenameScheme :=
  { renameCount := 10, nameByteLens := staticShredNameByteLens, keepsExtension := false }

/-- `shredSingleFile` after its existence check: run the DoD overwrite
(modelled by whether it completes, `overwriteOk`), then
`secureDeleteFileName`; an overwrite failure is rethrown, and nothing after
a successful overwrite can throw. -/
def shredSingleFileRun (overwriteOk : Bool) (env : FsEnv) : Except String NameDeleteResult :=
  if overwriteOk then .ok (secureDeleteFileName env)
  else .error "overwrite failed"

/-- The static `shredFile` after its guards: overwrite passes, then 10
unguarded `renameSync`s, then an unguarded `unlinkSync`; any throw lands in
the outer `catch`, which returns `false`. Returns whether the operation
reports success. -/
def shredFileStaticRun (overwriteOk : Bool) (env : FsEnv) : Bool :=
  overwriteOk && (List.range 10).all (fun i => env.renameOk i) && env.unlinkOk

/-! ### Directory traversal: counting, per-child failure, progress -/

/-- A filesystem tree: a file carries its size and whether shredding it
succeeds; a directory carries its children in `readdirSync` order. -/
inductive FSTree where
  | file (size : Nat) (ok : Bool)
  | dir (children : List FSTree)
deriving Repr

mutual

/-- `countItems` from `shredDirectory`: a file counts 1; a directory counts
1 plus its recursive contents. -/
def countItems : FSTree → Nat
  | .file _ _ => 1
  | .dir cs => 1 + countItemsList cs

/-- The sum of `countItems` over a list of children. -/
def countItemsList : List FSTree → Nat
  | [] => 0
  | c :: cs => countItems c + countItemsList cs

end

/-- `totalItems` as `shredDirectory` computes it: `countItems` is invoked on
each child of the root (`for (const item of items) countItems(...)`), never
on the root itself. -/
def totalItems (children : List FSTree) : Nat := countItemsList children

/-- Modelled from the spec: "recursively count leaf units — each file
counts as 1, each directory node (including itself) counts as 1" applied to
the root directory. -/
def specLeafUnits (children : List FSTree) : Nat := countItems (.dir children)

/-- The inner progress values a file of size `S` reports while
`shredSingleFile` runs `performDoDWipe` on it (three passes with the DoD
windows). -/
def fileInnerEvents (S : Nat) : List ℤ :=
  performDoDWipeInternalCalls.flatMap (fun c => passEvents S c.progressStart c.progressEnd)

/-- `Math.floor(((processedItems + fileProgress / 100) / totalItems) * 100)`:
the overall value reported while a file is being overwritten. -/
def overallFileEvent (total processed : Nat) (p : ℤ) : ℤ :=
  ⌊(((processed : ℚ) + (p : ℚ) / 100) / (total : ℚ)) * 100⌋

/-- `Math.floor((processedItems / totalItems) * 100)` reported right after
`processedItems++`, so with value `processed + 1`. -/
def itemDoneEvent (total processed : Nat) : ℤ :=
  ⌊(((processed : ℚ) + 1) / (total : ℚ)) * 100⌋

/-- State threaded through `processItems`: the overall progress values
reported so far, the sizes of the files successfully shredded in order, the
`processedItems` counter, and whether an exception is propagating. -/
structure DirRun where
  events : List ℤ
  shredded : List Nat
  processed : Nat
  aborted : Bool
deriving DecidableEq, Repr

mutual

/-- `processItems` on one item. A file is shredded via `shredSingleFile`
(whose per-chunk callback reports `overallFileEvent` values); if that throws
(`ok = false`, modelled as failing before its first write), the exception
propagates — there is no `try`/`catch` around the child. A directory
processes its children, ignores its `rmdirSync` error, and then the shared
tail runs `processedItems++` and reports `itemDoneEvent`. -/
def processItems (total processed : Nat) : FSTree → DirRun
  | .file s ok =>
      if ok then
        { events := (fileInnerEvents s).map (overallFileEvent total processed) ++
            [itemDoneEvent total processed]
          shredded := [s]
          processed := processed + 1
          aborted := false }
      else
        { events := [], shredded := [], processed := processed, aborted := true }
  | .dir cs =>
      let r := processItemsList total processed cs
      if r.aborted then r
      else
        { events := r.events ++ [itemDoneEvent total r.processed]
          shredded := r.shredded
          processed := r.processed + 1
          aborted := false }

/-- Sequential `await processItems(...)` over children: the first
propagating exception aborts the remaining iterations. -/
def processItemsList (total processed : Nat) : List FSTree → DirRun
  | [] => { events := [], shredded := [], processed := processed, aborted := false }
  | c :: cs =>
      let r := processItems total processed c
      if r.aborted then r
      else
        let r2 := processItemsList total r.processed cs
        { events := r.events ++ r2.events
          shredded := r.shredded ++ r2.shredded
          processed := r2.processed
          aborted := r2.aborted }

end

/-- `shredDirectory` on a root whose `readdirSync` yields `children`: count
`totalItems` over the children (Pass A, before any mutation), then process
every child starting from `processedItems = 0`; the final `rmdirSync` of the
root reports no event. -/
def shredDirectoryRun (children : List FSTree) : DirRun :=
  processItemsList (totalItems children) 0 children

/-! ### `Utils.validateFilePath` and the static `shredFile` guard -/

/-- The facts about a path that `validateFilePath`'s checks consult. -/
structure PathInfo where
  isEmptyOrBlank : Bool
  pathExists : Bool
  isSystemCriticalFile : Bool
  isFileLocked : Bool
  length : Nat

/-- The `result` object `validateFilePath` builds. -/
structure ValidationResult where
  isValid : Bool
  errors : List String
deriving DecidableEq, Repr

/-- A JS value as the guard `if (!Utils.validateFilePath(filePath))` sees
it: either `undefined` (a path that returns nothing) or an object. -/
inductive JSValue where
  | undefined
  | object (v : ValidationResult)
deriving DecidableEq, Repr

/-- `Utils.validateFilePath`: every branch returns the `result` object. -/
def validateFilePath (p : PathInfo) : JSValue :=
  if p.isEmptyOrBlank then .object ⟨false, ["文件路径不能为空"]⟩
  else if !p.pathExists then .object ⟨false, ["文件或目录不存在"]⟩
  else if p.isSystemCriticalFile then .object ⟨false, ["不能粉碎系统关键文件"]⟩
  else if p.isFileLocked then .object ⟨false, ["文件被其他程序占用"]⟩
  else if p.length > 260 then .object ⟨false, ["文件路径过长"]⟩
  else .object ⟨true, []⟩

/-- JS truthiness of such a value: `undefined` is falsy, any object is
truthy. -/
def jsTruthy : JSValue → Bool
  | .undefined => false
  | .object _ => true

/-- The static `shredFile` guard: it throws iff `!Utils.validateFilePath(
filePath)` is true. -/
def staticShredFilePathGuardRejects (p : PathInfo) : Bool :=
  !jsTruthy (validateFilePath p)

/-! ## Shared lemmas -/

/-- The three DoD calls, evaluated. -/
theorem performDoDWipeInternalCalls_eq :
    performDoDWipeInternalCalls =
      [⟨some 0, 0, 100 / 3⟩, ⟨some 255, 100 / 3, 200 / 3⟩, ⟨none, 200 / 3, 100⟩] := by
  simp only [performDoDWipeInternalCalls, wipeCalls, dodWipePatternValues, wipeCallsFrom]
  norm_num

theorem bufferSizeOf_le (S : Nat) : bufferSizeOf S ≤ S := min_le_right _ _

theorem bufferSizeOf_pos {S : Nat} (h : 0 < S) : 0 < bufferSizeOf S :=
  lt_min (by norm_num) h

theorem fullBuffers_pos {S : Nat} (h : 0 < S) : 0 < fullBuffers S :=
  Nat.div_pos (bufferSizeOf_le S) (bufferSizeOf_pos h)

theorem fullBuffers_mul {S : Nat} (h : remainingBytes S = 0) :
    fullBuffers S * bufferSizeOf S = S :=
  Nat.div_mul_cancel (Nat.dvd_of_mod_eq_zero h)

theorem jsRound_zero : jsRound 0 = 0 := by simp [jsRound]

theorem jsRound_hundred : jsRound 100 = 100 := by simp [jsRound]

/-- A pass on a file whose size is a positive multiple of its buffer size
ends with the rounded `endProgress` value. -/
theorem passEvents_getLast (S : Nat) (ps pe : ℚ) (h1 : 0 < S)
    (h2 : remainingBytes S = 0) :
    (passEvents S ps pe).getLast? = some (jsRound pe) := by
  obtain ⟨m, hm⟩ := Nat.exists_eq_succ_of_ne_zero (fullBuffers_pos h1).ne'
  have harg : passProgressArg S ps pe m = pe := by
    unfold passProgressArg
    have hB : ((m : ℚ) + 1) * (bufferSizeOf S : ℚ) = (S : ℚ) := by
      have hmul := fullBuffers_mul h2
      rw [hm] at hmul
      exact_mod_cast hmul
    rw [show ((m : ℚ) + 1) * (bufferSizeOf S : ℚ) / (S : ℚ) = 1 by
      rw [hB]; exact div_self (by exact_mod_cast h1.ne')]
    ring
  unfold passEvents
  rw [hm, List.range_succ, List.map_append, List.map_singleton,
    List.getLast?_concat, harg]

theorem wipeCallsFrom_length (n : ℚ) (i : Nat) (ps : List (Option Nat)) :
    (wipeCallsFrom n i ps).length = ps.length := by
  induction ps generalizing i with
  | nil => rfl
  | cons p ps ih => simp [wipeCallsFrom, ih]

/-- The last call of a wipe loop over `p :: ps` starting at index `i` has
`progressEnd = (i + |ps| + 1)/n * 100`. -/
theorem wipeCallsFrom_getLast (n : ℚ) (i : Nat) (p : Option Nat)
    (ps : List (Option Nat)) :
    ∃ c, (wipeCallsFrom n i (p :: ps)).getLast? = some c ∧
      c.progressEnd = ((i : ℚ) + ps.length + 1) / n * 100 := by
  induction ps generalizing i p with
  | nil =>
    refine ⟨⟨p, (i : ℚ) / n * 100, ((i : ℚ) + 1) / n * 100⟩, ?_, ?_⟩
    · simp [wipeCallsFrom]
    · push_cast [List.length_nil]
      ring
  | cons q qs ih =>
    obtain ⟨c, hc, hpe⟩ := ih (i + 1) q
    refine ⟨c, ?_, ?_⟩
    · simp only [wipeCallsFrom] at hc ⊢
      rw [List.getLast?_cons_cons]
      exact hc
    · rw [hpe]; push_cast [List.length_cons]; ring

/-- Any nonempty wipe loop ends with a call whose `progressEnd` is 100. -/
theorem wipeCalls_getLast_pe (pats : List (Option Nat)) (h : pats ≠ []) :
    ∃ c, (wipeCalls pats).getLast? = some c ∧ c.progressEnd = 100 := by
  cases pats with
  | nil => exact absurd rfl h
  | cons p ps =>
    obtain ⟨c, hc, hpe⟩ := wipeCallsFrom_getLast (((p :: ps).length : ℚ)) 0 p ps
    refine ⟨c, hc, ?_⟩
    rw [hpe]
    have hne : ((ps.length : ℚ) + 1) ≠ 0 := by positivity
    push_cast
    field_simp

/-- Every method's call list ends with `progressEnd = 100`. -/
theorem methodCalls_getLast (m : Method) :
    ∃ c, (methodCalls m).getLast? = some c ∧ c.progressEnd = 100 := by
  cases m with
  | quick => exact ⟨⟨none, 0, 100⟩, rfl, rfl⟩
  | dod =>
    simp only [methodCalls, performDoDWipeInternalCalls]
    exact wipeCalls_getLast_pe _ (by simp [dodWipePatternValues])
  | gutmann =>
    simp only [methodCalls, performGutmannWipeCalls]
    exact wipeCalls_getLast_pe _ (by simp [gutmannPatterns])

theorem runMethodTraces_getLast (m : Method) (S : Nat) (c : PassCall)
    (hc : (methodCalls m).getLast? = some c) :
    (runMethodTraces m S).getLast? =
      some (overwriteFileWithPattern S c.pattern c.progressStart c.progressEnd) := by
  simp [runMethodTraces, List.getLast?_map, hc]

theorem jsRound_mono {a b : ℚ} (h : a ≤ b) : jsRound a ≤ jsRound b := by
  unfold jsRound
  rw [round_eq, round_eq]
  exact Int.floor_le_floor (by linarith)

/-- Every progress argument of a pass lies in `[ps, pe]`. -/
theorem passProgressArg_bounds (S : Nat) (ps pe : ℚ) (h : ps ≤ pe) (i : Nat)
    (hi : i < fullBuffers S) :
    ps ≤ passProgressArg S ps pe i ∧ passProgressArg S ps pe i ≤ pe := by
  rcases Nat.eq_zero_or_pos S with rfl | hS
  · exact absurd hi (by simp [fullBuffers, bufferSizeOf])
  have hfrac0 : 0 ≤ ((i : ℚ) + 1) * (bufferSizeOf S : ℚ) / (S : ℚ) := by positivity
  have hfrac1 : ((i : ℚ) + 1) * (bufferSizeOf S : ℚ) / (S : ℚ) ≤ 1 := by
    rw [div_le_one (by exact_mod_cast hS)]
    have hmul : (i + 1) * bufferSizeOf S ≤ S :=
      calc (i + 1) * bufferSizeOf S ≤ fullBuffers S * bufferSizeOf S :=
            Nat.mul_le_mul_right _ hi
        _ ≤ S := Nat.div_mul_le_self S _
    exact_mod_cast hmul
  have hw : 0 ≤ pe - ps := sub_nonneg.mpr h
  constructor
  · unfold passProgressArg
    nlinarith [mul_nonneg hw hfrac0]
  · unfold passProgressArg
    nlinarith [mul_le_mul_of_nonneg_left hfrac1 hw]

/-- Every event of a pass lies in `[round ps, round pe]`. -/
theorem passEvents_mem_bounds (S : Nat) (ps pe : ℚ) (h : ps ≤ pe) {e : ℤ}
    (he : e ∈ passEvents S ps pe) : jsRound ps ≤ e ∧ e ≤ jsRound pe := by
  unfold passEvents at he
  obtain ⟨i, hi, rfl⟩ := List.mem_map.mp he
  rw [List.mem_range] at hi
  obtain ⟨l, u⟩ := passProgressArg_bounds S ps pe h i hi
  exact ⟨jsRound_mono l, jsRound_mono u⟩

/-- Every event of a pass with `0 ≤ ps ≤ pe ≤ 100` lies in `[0, 100]`. -/
theorem passEvents_mem_bounds' (S : Nat) (ps pe : ℚ) (h0 : 0 ≤ ps) (h : ps ≤ pe)
    (h100 : pe ≤ 100) {e : ℤ} (he : e ∈ passEvents S ps pe) :
    0 ≤ e ∧ e ≤ 100 := by
  obtain ⟨l, u⟩ := passEvents_mem_bounds S ps pe h he
  have hl := jsRound_mono h0
  have hu := jsRound_mono h100
  rw [jsRound_zero] at hl
  rw [jsRound_hundred] at hu
  exact ⟨le_trans hl l, le_trans u hu⟩

/-- Within one pass the reported events are non-decreasing. -/
theorem passEvents_chain (S : Nat) (ps pe : ℚ) (h : ps ≤ pe) :
    List.Chain' (· ≤ ·) (passEvents S ps pe) := by
  unfold passEvents
  rw [List.chain'_map]
  cases hn : fullBuffers S with
  | zero => simp
  | succ n =>
    rw [List.chain'_range_succ]
    intro m _
    apply jsRound_mono
    rcases Nat.eq_zero_or_pos S with rfl | hS
    · exact absurd hn (by simp [fullBuffers, bufferSizeOf])
    have hw : 0 ≤ pe - ps := sub_nonneg.mpr h
    have hfrac : ((m : ℚ) + 1) * (bufferSizeOf S : ℚ) / (S : ℚ) ≤
        ((m : ℚ) + 1 + 1) * (bufferSizeOf S : ℚ) / (S : ℚ) := by
      have hSpos : (0 : ℚ) < (S : ℚ) := by exact_mod_cast hS
      have hB : (0 : ℚ) ≤ (bufferSizeOf S : ℚ) := by positivity
      exact (div_le_div_iff_of_pos_right hSpos).mpr (by nlinarith)
    unfold passProgressArg
    push_cast
    nlinarith [mul_le_mul_of_nonneg_left hfrac hw]

/-- Gluing bound: if everything in `l₁` is at most `c` and everything in
`l₂` is at least `c`, the `Chain'.append` side condition holds. -/
theorem glue_le {l₁ l₂ : List ℤ} {c : ℤ} (h1 : ∀ x ∈ l₁, x ≤ c)
    (h2 : ∀ y ∈ l₂, c ≤ y) :
    ∀ x ∈ l₁.getLast?, ∀ y ∈ l₂.head?, x ≤ y := by
  intro x hx y hy
  exact le_trans (h1 x (List.mem_of_mem_getLast? hx))
    (h2 y (List.mem_of_mem_head? hy))

/-- The DoD inner-event sequence, written out: the three passes appended. -/
theorem fileInnerEvents_eq (S : Nat) :
    fileInnerEvents S =
      passEvents S 0 (100 / 3) ++
        (passEvents S (100 / 3) (200 / 3) ++ (passEvents S (200 / 3) 100 ++ [])) := by
  rw [fileInnerEvents, performDoDWipeInternalCalls_eq]
  rfl

/-- The inner progress a file reports during its three DoD passes lies in
`[0, 100]`. -/
theorem fileInnerEvents_bounds (S : Nat) {e : ℤ} (he : e ∈ fileInnerEvents S) :
    0 ≤ e ∧ e ≤ 100 := by
  rw [fileInnerEvents_eq] at he
  simp only [List.append_nil, List.mem_append] at he
  rcases he with h | h | h
  · exact passEvents_mem_bounds' S _ _ (by norm_num) (by norm_num) (by norm_num) h
  · exact passEvents_mem_bounds' S _ _ (by norm_num) (by norm_num) (by norm_num) h
  · exact passEvents_mem_bounds' S _ _ (by norm_num) (by norm_num) (by norm_num) h

/-- The inner progress a file reports during its three DoD passes is
non-decreasing. -/
theorem fileInnerEvents_chain (S : Nat) :
    List.Chain' (· ≤ ·) (fileInnerEvents S) := by
  rw [fileInnerEvents_eq]
  simp only [List.append_nil]
  refine List.Chain'.append ?_ (List.Chain'.append ?_ ?_ ?_) ?_
  · exact passEvents_chain S _ _ (by norm_num)
  · exact passEvents_chain S _ _ (by norm_num)
  · exact passEvents_chain S _ _ (by norm_num)
  · refine glue_le (c := jsRound (200 / 3)) ?_ ?_
    · intro x hx
      exact (passEvents_mem_bounds S _ _ (by norm_num) hx).2
    · intro y hy
      exact (passEvents_mem_bounds S _ _ (by norm_num) hy).1
  · refine glue_le (c := jsRound (100 / 3)) ?_ ?_
    · intro x hx
      exact (passEvents_mem_bounds S _ _ (by norm_num) hx).2
    · intro y hy
      rcases List.mem_append.mp hy with h | h
      · exact (passEvents_mem_bounds S _ _ (by norm_num) h).1
      · exact le_trans (jsRound_mono (by norm_num))
          (passEvents_mem_bounds S _ _ (by norm_num) h).1

/-- `Math.floor((x / totalItems) * 100)`: the overall progress value after
`x` of `total` items are done. -/
def doneVal (total x : Nat) : ℤ := ⌊((x : ℚ) / (total : ℚ)) * 100⌋

theorem itemDoneEvent_eq (total processed : Nat) :
    itemDoneEvent total processed = doneVal total (processed + 1) := by
  unfold itemDoneEvent doneVal
  congr 1
  push_cast
  ring

/-- Division by the (possibly zero) denominator is monotone. -/
theorem div_total_mono {a b : ℚ} (total : Nat) (h : a ≤ b) :
    a / (total : ℚ) * 100 ≤ b / (total : ℚ) * 100 := by
  rcases Nat.eq_zero_or_pos total with rfl | ht
  · simp
  · have hpos : (0 : ℚ) < (total : ℚ) := by exact_mod_cast ht
    gcongr

theorem doneVal_mono (total : Nat) {x y : Nat} (h : x ≤ y) :
    doneVal total x ≤ doneVal total y :=
  Int.floor_le_floor (div_total_mono total (by exact_mod_cast h))

theorem overallFileEvent_mono (total processed : Nat) {p q : ℤ} (h : p ≤ q) :
    overallFileEvent total processed p ≤ overallFileEvent total processed q := by
  unfold overallFileEvent
  refine Int.floor_le_floor (div_total_mono total ?_)
  have : (p : ℚ) ≤ (q : ℚ) := by exact_mod_cast h
  linarith

theorem overallFileEvent_lower (total processed : Nat) {p : ℤ} (hp : 0 ≤ p) :
    doneVal total processed ≤ overallFileEvent total processed p := by
  unfold overallFileEvent doneVal
  refine Int.floor_le_floor (div_total_mono total ?_)
  have : (0 : ℚ) ≤ (p : ℚ) := by exact_mod_cast hp
  linarith

theorem overallFileEvent_upper (total processed : Nat) {p : ℤ} (hp : p ≤ 100) :
    overallFileEvent total processed p ≤ doneVal total (processed + 1) := by
  unfold overallFileEvent doneVal
  refine Int.floor_le_floor (div_total_mono total ?_)
  have : (p : ℚ) ≤ 100 := by exact_mod_cast hp
  push_cast
  linarith

theorem countItems_pos (t : FSTree) : 0 < countItems t := by
  cases t with
  | file s ok => simp only [countItems]; omega
  | dir cs => simp only [countItems]; omega

theorem countItemsList_pos (cs : List FSTree) (h : cs ≠ []) :
    0 < countItemsList cs := by
  cases cs with
  | nil => exact absurd rfl h
  | cons c cs =>
    have hc := countItems_pos c
    simp only [countItemsList]
    omega

theorem doneVal_total {total : Nat} (ht : 0 < total) : doneVal total total = 100 := by
  unfold doneVal
  rw [div_self (by exact_mod_cast ht.ne' : (total : ℚ) ≠ 0)]
  norm_num

mutual

/-- Invariant of `processItems` on one item, for a non-aborting run: the
`processedItems` counter advances by `countItems`, the reported overall
progress values are non-decreasing, they all lie between the done-values of
the entry and exit counters, and the last one is exactly the exit
done-value. -/
theorem processItems_inv (total processed : Nat) (t : FSTree)
    (hab : (processItems total processed t).aborted = false) :
    (processItems total processed t).processed = processed + countItems t ∧
    (processItems total processed t).events.getLast? =
      some (doneVal total (processed + countItems t)) ∧
    List.Chain' (· ≤ ·) (processItems total processed t).events ∧
    ∀ e ∈ (processItems total processed t).events,
      doneVal total processed ≤ e ∧ e ≤ doneVal total (processed + countItems t) := by
  cases t with
  | file s ok =>
    cases ok with
    | false => simp [processItems] at hab
    | true =>
      simp only [processItems, if_true, countItems]
      refine ⟨trivial, ?_, ?_, ?_⟩
      · rw [List.getLast?_concat, itemDoneEvent_eq]
      · refine List.Chain'.append ?_ (List.chain'_singleton _) ?_
        · exact List.chain'_map_of_chain' _
            (fun a b hab' => overallFileEvent_mono total processed hab')
            (fileInnerEvents_chain s)
        · refine glue_le (c := doneVal total (processed + 1)) ?_ ?_
          · intro x hx
            obtain ⟨p, hp, rfl⟩ := List.mem_map.mp hx
            exact overallFileEvent_upper total processed (fileInnerEvents_bounds s hp).2
          · intro y hy
            rcases List.mem_singleton.mp hy with rfl
            rw [itemDoneEvent_eq]
      · intro e he
        rcases List.mem_append.mp he with h | h
        · obtain ⟨p, hp, rfl⟩ := List.mem_map.mp h
          exact ⟨overallFileEvent_lower total processed (fileInnerEvents_bounds s hp).1,
            overallFileEvent_upper total processed (fileInnerEvents_bounds s hp).2⟩
        · rcases List.mem_singleton.mp h with rfl
          rw [itemDoneEvent_eq]
          exact ⟨doneVal_mono total (Nat.le_succ _), le_refl _⟩
  | dir cs =>
    simp only [processItems] at hab ⊢
    cases hr : (processItemsList total processed cs).aborted with
    | true => simp [hr] at hab
    | false =>
      simp only [if_neg Bool.false_ne_true] at hab ⊢
      obtain ⟨hp, hl, hc, hb⟩ := processItemsList_inv total processed cs hr
      have hcount : countItems (FSTree.dir cs) = 1 + countItemsList cs := by
        simp [countItems]
      refine ⟨?_, ?_, ?_, ?_⟩
      · simp only [hp, hcount]; omega
      · rw [List.getLast?_concat, itemDoneEvent_eq, hp, hcount]
        have hx : processed + countItemsList cs + 1 =
            processed + (1 + countItemsList cs) := by omega
        rw [hx]
      · refine List.Chain'.append hc (List.chain'_singleton _) ?_
        refine glue_le (c := doneVal total ((processItemsList total processed cs).processed)) ?_ ?_
        · intro x hx
          exact le_of_le_of_eq (hb x hx).2 (by rw [hp])
        · intro y hy
          rcases List.mem_singleton.mp hy with rfl
          rw [itemDoneEvent_eq]
          exact doneVal_mono total (Nat.le_succ _)
      · intro e he
        rcases List.mem_append.mp he with h | h
        · refine ⟨(hb e h).1, le_trans (hb e h).2 (doneVal_mono total ?_)⟩
          rw [hcount]; omega
        · rcases List.mem_singleton.mp h with rfl
          rw [itemDoneEvent_eq, hp, hcount]
          constructor
          · exact doneVal_mono total (by omega)
          · exact doneVal_mono total (by omega)

/-- Invariant of `processItemsList` over the remaining children. -/
theorem processItemsList_inv (total processed : Nat) (cs : List FSTree)
    (hab : (processItemsList total processed cs).aborted = false) :
    (processItemsList total processed cs).processed = processed + countItemsList cs ∧
    (cs ≠ [] → (processItemsList total processed cs).events.getLast? =
      some (doneVal total (processed + countItemsList cs))) ∧
    List.Chain' (· ≤ ·) (processItemsList total processed cs).events ∧
    ∀ e ∈ (processItemsList total processed cs).events,
      doneVal total processed ≤ e ∧ e ≤ doneVal total (processed + countItemsList cs) := by
  cases cs with
  | nil =>
    refine ⟨?_, ?_, ?_, ?_⟩
    · simp [processItemsList, countItemsList]
    · intro h
      exact absurd rfl h
    · simp [processItemsList]
    · simp [processItemsList]
  | cons c cs' =>
    simp only [processItemsList] at hab ⊢
    cases hr : (processItems total processed c).aborted with
    | true => simp [hr] at hab
    | false =>
      rw [hr] at hab
      simp only [if_neg Bool.false_ne_true] at hab ⊢
      obtain ⟨hp1, hl1, hc1, hb1⟩ := processItems_inv total processed c hr
      obtain ⟨hp2, hl2, hc2, hb2⟩ :=
        processItemsList_inv total (processItems total processed c).processed cs' hab
      have hcount : countItemsList (c :: cs') = countItems c + countItemsList cs' := by
        simp [countItemsList]
      refine ⟨?_, ?_, ?_, ?_⟩
      · rw [hp2, hp1, hcount]; omega
      · intro _
        cases cs' with
        | nil =>
          simp only [processItemsList, List.append_nil]
          rw [hl1, hcount]
          simp [countItemsList]
        | cons c2 cs2 =>
          have hne : (processItemsList total
              (processItems total processed c).processed (c2 :: cs2)).events ≠ [] := by
            intro hemp
            have := hl2 (by simp)
            rw [hemp] at this
            simp at this
          rw [List.getLast?_append_of_ne_nil _ hne, hl2 (by simp), hp1, hcount]
          have hx : processed + countItems c + countItemsList (c2 :: cs2) =
              processed + (countItems c + countItemsList (c2 :: cs2)) := by omega
          rw [hx]
      · refine List.Chain'.append hc1 hc2 ?_
        refine glue_le (c := doneVal total (processed + countItems c)) ?_ ?_
        · intro x hx
          exact (hb1 x hx).2
        · intro y hy
          exact le_of_eq_of_le (by rw [hp1]) (hb2 y hy).1
      · intro e he
        rcases List.mem_append.mp he with h | h
        · refine ⟨(hb1 e h).1, le_trans (hb1 e h).2 (doneVal_mono total ?_)⟩
          rw [hcount]; omega
        · have h1 : doneVal total processed ≤
              doneVal total (processItems total processed c).processed := by
            rw [hp1]
            exact doneVal_mono total (by omega)
          have h2 : e ≤ doneVal total (processed + countItemsList (c :: cs')) := by
            refine le_of_le_of_eq (hb2 e h).2 ?_
            rw [hp1, hcount]
            have hx : processed + countItems c + countItemsList cs' =
                processed + (countItems c + countItemsList cs') := by omega
            rw [hx]
          exact ⟨le_trans h1 (hb2 e h).1, h2⟩

end

/-! ## Claims -/

/-- The 27-entry fixed-byte table exactly as the spec prints it. -/
def specGutmannFixedTable : List Nat :=
  [0x55, 0xAA, 0x92, 0x49, 0x24, 0x92, 0x49, 0x24, 0x55, 0xAA, 0x92, 0x49, 0x24,
   0x92, 0x49, 0x24, 0x55, 0xAA, 0x92, 0x49, 0x24, 0x92, 0x49, 0x24, 0x55, 0xAA, 0x92]

/-- C1: a `gutmann` shred executes exactly 35 passes in the fixed order
4 random, the 27-entry fixed-byte table verbatim, then 4 random:
`performGutmannWipe` runs one `overwriteFileWithPattern` call per
`gutmannPatterns` entry in order, and that pattern sequence is exactly the
claimed one. -/
theorem gutmann_pass_sequence :
    gutmannPatterns.map PatternEntry.pattern =
      List.replicate 4 .random ++ specGutmannFixedTable.map JsPattern.byte ++
        List.replicate 4 .random ∧
    gutmannPatterns.length = 35 ∧
    performGutmannWipeCalls.map PassCall.pattern =
      List.replicate 4 none ++ specGutmannFixedTable.map some ++ List.replicate 4 none ∧
    performGutmannWipeCalls.length = 35 := by
  refine ⟨by decide, by decide, ?_, ?_⟩ <;>
    simp [performGutmannWipeCalls, wipeCalls, wipeCallsFrom, gutmannPatterns,
      patternValue, specGutmannFixedTable]

/-- C7: a `dod` shred runs exactly three passes, `Fixed(0x00)`,
`Fixed(0xFF)`, `Random`, with pass `i` of 3 given the progress window
`[i/3*100, (i+1)/3*100]`. -/
theorem dod_pass_calls :
    performDoDWipeInternalCalls =
      [⟨some 0x00, 0 / 3 * 100, 1 / 3 * 100⟩,
       ⟨some 0xFF, 1 / 3 * 100, 2 / 3 * 100⟩,
       ⟨none, 2 / 3 * 100, 3 / 3 * 100⟩] := by
  rw [performDoDWipeInternalCalls_eq]
  norm_num

/-- C9: `Utils.validateFilePath` returns its `result` object on every
branch, and an object is truthy, so the static `shredFile` guard
`if (!Utils.validateFilePath(filePath))` never rejects any input. -/
theorem static_path_guard_unreachable (p : PathInfo) :
    staticShredFilePathGuardRejects p = false ∧
    ∃ v, validateFilePath p = JSValue.object v := by
  unfold staticShredFilePathGuardRejects validateFilePath
  repeat' split
  all_goals exact ⟨rfl, _, rfl⟩

/-- C10: on a size-0 file a single `overwriteFileWithPattern` pass computes
`bufferSize = min(1 MiB, 0) = 0`, performs no chunk write and no remainder
write, emits no progress event, and still flushes and completes. -/
theorem overwrite_zero_size_file (pat : Option Nat) (ps pe : ℚ) :
    bufferSizeOf 0 = 0 ∧ fullBuffers 0 = 0 ∧ remainingBytes 0 = 0 ∧
    overwriteFileWithPattern 0 pat ps pe =
      { pat := pat, writes := [], events := [], flushed := true } := by
  exact ⟨rfl, rfl, rfl, rfl⟩

/-- C4 counterexample: for a root directory containing a single file,
`shredDirectory`'s denominator `totalItems` is 1 — the root directory node
is never passed to `countItems` — while the claimed count (each file 1,
each directory node including the root 1) is 2. -/
theorem totalItems_root_not_counted_cex :
    totalItems [FSTree.file 0 true] = 1 ∧ specLeafUnits [FSTree.file 0 true] = 2 ∧
    totalItems [FSTree.file 0 true] ≠ specLeafUnits [FSTree.file 0 true] := by
  refine ⟨rfl, rfl, by decide⟩

/-- C4 amended: the pre-mutation count `totalItems` gives 1 to each file
and each directory node of the tree except the root itself: it is exactly
the with-root count minus one. -/
theorem totalItems_counts_all_but_root (children : List FSTree) :
    totalItems children + 1 = specLeafUnits children := by
  simp [totalItems, specLeafUnits, countItems]
  omega

/-- C2 counterexample: a root with a failing first child (a locked file)
and a healthy second child: the failure propagates out of `processItems`,
the second child is never shredded, and the whole directory shred aborts. -/
theorem child_failure_aborts_traversal_cex :
    shredDirectoryRun [FSTree.file 1 false, FSTree.file 2 true] =
      { events := [], shredded := [], processed := 0, aborted := true } := by
  rfl

/-- C2 amended: `processItems` wraps no `try`/`catch` around a child, so
the first failing child makes the traversal abort at once: the remaining
children contribute neither shredded files nor progress events. -/
theorem child_failure_aborts_traversal (total processed : Nat) (c : FSTree)
    (cs : List FSTree) (h : (processItems total processed c).aborted = true) :
    processItemsList total processed (c :: cs) = processItems total processed c := by
  rw [processItemsList]
  simp [h]

/-- C2 amended, witness. -/
theorem child_failure_aborts_traversal_witness :
    (processItems 2 0 (FSTree.file 1 false)).aborted = true ∧
    processItemsList 2 0 [FSTree.file 1 false, FSTree.file 2 true] =
      processItems 2 0 (FSTree.file 1 false) := by
  exact ⟨rfl, child_failure_aborts_traversal 2 0 _ _ rfl⟩

/-- C8 counterexample: the engine does not use one uniform rename scheme —
the instance path (`secureDeleteFileName`) and the static `shredFile` path
differ in rename count, in random-name lengths, and in extension handling. -/
theorem rename_scheme_not_uniform_cex :
    instanceRenameScheme ≠ staticRenameScheme := by
  decide

/-- C8 amended: the engine has exactly two rename schemes: the instance
path performs 5 renames with shrinking byte lengths `max(8, 16 - 2*i)` =
16, 14, 12, 10, 8, keeping the extension; the static path performs 10
renames with fixed 16-byte random names and no extension. -/
theorem rename_schemes_values :
    instanceRenameScheme = ⟨5, [16, 14, 12, 10, 8], true⟩ ∧
    staticRenameScheme = ⟨10, List.replicate 10 16, false⟩ := by
  exact ⟨by decide, by decide⟩

/-- C3 counterexample: in the static `shredFile` path a completed overwrite
does not guarantee a success report: with every rename (and the unlink)
failing, the unguarded `renameSync` throws into the outer `catch` and the
operation returns `false`. -/
theorem static_rename_failure_fails_cex :
    shredFileStaticRun true { renameOk := fun _ => false, unlinkOk := false } = false := by
  rfl

/-- C3 amended: after a completed overwrite, the instance path
(`shredSingleFile` → `secureDeleteFileName`) suppresses every rename and
unlink failure — it never throws and always attempts the final unlink — so
the file shred reports success for any filesystem behaviour; the static
`shredFile` path instead reports success exactly when all 10 renames and
the unlink succeed. -/
theorem overwrite_success_reporting (env : FsEnv) :
    shredSingleFileRun true env = .ok (secureDeleteFileName env) ∧
    (secureDeleteFileName env).threw = false ∧
    (secureDeleteFileName env).unlinkAttempted = true ∧
    (shredFileStaticRun true env = true ↔
      ((∀ i < 10, env.renameOk i = true) ∧ env.unlinkOk = true)) := by
  refine ⟨rfl, rfl, rfl, ?_⟩
  simp [shredFileStaticRun, List.all_eq_true, List.mem_range]

/-- C5 counterexample: the "last pass advances progress to exactly 100"
conclusion fails for two kinds of sizes the claim covers. For S = 0 the
single `quick` pass emits no progress event at all. And for S = 1.5 MiB
(1572864 bytes, so `S % bufferSize = 0.5 MiB ≠ 0`) the single `quick` pass
reports only `round(100·(1 MiB / 1.5 MiB)) = 67` — the remainder write
emits no event — so the last pass ends below 100 there. (Rounding means not
every nonzero remainder ends below 100: the final event is whatever
`round` of the last full-chunk fraction gives.) -/
theorem quick_no_final_100_cex :
    (runMethodTraces Method.quick 0).map PassTrace.events = [[]] ∧
    remainingBytes 1572864 ≠ 0 ∧
    (runMethodTraces Method.quick 1572864).map PassTrace.events = [[67]] := by
  refine ⟨rfl, by decide, ?_⟩
  norm_num [runMethodTraces, methodCalls, performQuickWipeCalls, overwriteFileWithPattern,
    passEvents, fullBuffers, bufferSizeOf, passProgressArg, jsRound, round_eq,
    List.range_succ]

/-- C5 amended: for every size S ≥ 0 and algorithm A the number of executed
passes equals the length of A's pass list; and whenever S is a positive
multiple of the buffer size `min(1 MiB, S)` — in particular whenever
`0 < S ≤ 1 MiB` — the last pass's final progress event is exactly 100.
(For other sizes the guarantee fails in general: at S = 0 there is no event
at all, and at S = 1.5 MiB the last pass ends at 67.) -/
theorem method_pass_count_and_final_progress (m : Method) (S : Nat) :
    (runMethodTraces m S).length = (methodPatternValues m).length ∧
    (0 < S → remainingBytes S = 0 →
      ∃ t, (runMethodTraces m S).getLast? = some t ∧
        t.events.getLast? = some 100) := by
  constructor
  · cases m <;>
      simp [runMethodTraces, methodCalls, methodPatternValues, performQuickWipeCalls,
        performDoDWipeInternalCalls, performGutmannWipeCalls, wipeCalls,
        wipeCallsFrom_length]
  · intro h1 h2
    obtain ⟨c, hc, hpe⟩ := methodCalls_getLast m
    refine ⟨_, runMethodTraces_getLast m S c hc, ?_⟩
    show (passEvents S c.progressStart c.progressEnd).getLast? = some 100
    rw [passEvents_getLast S _ _ h1 h2, hpe, jsRound_hundred]

/-- C5 amended, witness: `dod` on a 4-byte file runs 3 passes and its last
pass ends at 100. -/
theorem method_pass_count_and_final_progress_witness :
    (runMethodTraces Method.dod 4).length = (methodPatternValues Method.dod).length ∧
    ∃ t, (runMethodTraces Method.dod 4).getLast? = some t ∧
      t.events.getLast? = some 100 :=
  ⟨(method_pass_count_and_final_progress Method.dod 4).1,
    (method_pass_count_and_final_progress Method.dod 4).2 (by decide) (by decide)⟩

/-- C6 counterexample: shredding a root directory containing one 4-byte
file reports the overall progress sequence 33, 67, 100, 100: the value 100
is reported twice — once by the file's last DoD pass (via the per-file
callback) and once by the item-completion report — not exactly once. -/
theorem progress_100_reported_twice_cex :
    (shredDirectoryRun [FSTree.file 4 true]).events = [33, 67, 100, 100] ∧
    ((shredDirectoryRun [FSTree.file 4 true]).events.count 100) = 2 := by
  have h : (shredDirectoryRun [FSTree.file 4 true]).events = [33, 67, 100, 100] := by
    norm_num [shredDirectoryRun, totalItems, countItemsList, countItems, processItemsList,
      processItems, fileInnerEvents, performDoDWipeInternalCalls, wipeCalls, wipeCallsFrom,
      dodWipePatternValues, passEvents, fullBuffers, bufferSizeOf, passProgressArg,
      overallFileEvent, itemDoneEvent, jsRound, round_eq, List.range_succ]
  exact ⟨h, by rw [h]; rfl⟩

/-- C6 amended: for every completed shred of a nonempty directory, the
sequence of reported overall progress values is non-decreasing and its last
value is exactly 100 (reported before the root's own `rmdirSync`); 100 can
however be reported more than once. -/
theorem shredDirectory_progress_monotone (cs : List FSTree) (hne : cs ≠ [])
    (hab : (shredDirectoryRun cs).aborted = false) :
    List.Chain' (· ≤ ·) (shredDirectoryRun cs).events ∧
    (shredDirectoryRun cs).events.getLast? = some 100 := by
  have ht : 0 < countItemsList cs := countItemsList_pos cs hne
  obtain ⟨hp, hl, hc, hb⟩ := processItemsList_inv (totalItems cs) 0 cs hab
  refine ⟨hc, ?_⟩
  have h100 : doneVal (totalItems cs) (0 + countItemsList cs) = 100 := by
    rw [Nat.zero_add]
    exact doneVal_total ht
  rw [show (shredDirectoryRun cs).events =
      (processItemsList (totalItems cs) 0 cs).events from rfl, hl hne, h100]

/-- C6 amended, witness: the one-file directory shred has non-decreasing
events ending in 100. -/
theorem shredDirectory_progress_monotone_witness :
    ([FSTree.file 4 true] ≠ [] ∧
      (shredDirectoryRun [FSTree.file 4 true]).aborted = false) ∧
    (List.Chain' (· ≤ ·) (shredDirectoryRun [FSTree.file 4 true]).events ∧
      (shredDirectoryRun [FSTree.file 4 true]).events.getLast? = some 100) :=
  ⟨⟨by simp, rfl⟩, shredDirectory_progress_monotone [FSTree.file 4 true] (by simp) rfl⟩

end FileShredder
